import Mathlib

/-!
Verification of the biotite sequence core (`src/biotite/sequence/sequence.py`)
and the hybrid-36 identifier codec, via a shallow embedding in Lean.

A `Sequence` stores symbols as an integer code array whose numpy dtype is the
smallest unsigned integer type able to represent `alphabet_size - 1`.  We embed
numpy arrays as `List Int` together with the dtype width: every wholesale store
goes through `castUint`, the embedding of numpy's `astype` cast to an unsigned
dtype (wrap-around modulo `2 ^ width`).
-/

/-- Size constant `np.iinfo(np.uint8).max + 1` from the source. -/
def _size_uint8 : Nat := 256

/-- Size constant `np.iinfo(np.uint16).max + 1` from the source. -/
def _size_uint16 : Nat := 65536

/-- Size constant `np.iinfo(np.uint32).max + 1` from the source. -/
def _size_uint32 : Nat := 4294967296

/-- Embedding of `Sequence._dtype`: the bit width of the unsigned dtype chosen
for a given alphabet size. -/
def dtypeWidth (alphabet_size : Nat) : Nat :=
  if alphabet_size ≤ _size_uint8 then 8
  else if alphabet_size ≤ _size_uint16 then 16
  else if alphabet_size ≤ _size_uint32 then 32
  else 64

/-- Embedding of numpy's `astype` cast to an unsigned integer dtype of bit
width `w`: values wrap around modulo `2 ^ w` (the result is in `[0, 2^w)`). -/
def castUint (w : Nat) (v : Int) : Int := v % ((2 : Int) ^ w)

/-- An alphabet is its ordered list of symbols; the code of a symbol is its
position in the list. -/
abbrev Alphabet := List Char

/-- Modelled from the spec: `Alphabet.encode` (the alphabet module is not part
of the given sources).  Returns the position of the symbol in the alphabet's
ordered symbol list, or `none` (`AlphabetError`) if the symbol is absent. -/
def alphEncode (alph : Alphabet) (sym : Char) : Option Nat :=
  if sym ∈ alph then some (alph.indexOf sym) else none

/-- Modelled from the spec: `Alphabet.decode`.  Returns the symbol at the given
code, or `none` (`AlphabetError`) if the code is outside `[0, size)`. -/
def alphDecode (alph : Alphabet) (c : Int) : Option Char :=
  if c < 0 then none else alph[c.toNat]?

/-- Element-wise `Option`-valued map: `none` as soon as one element fails. -/
def optMap (f : α → Option β) : List α → Option (List β)
  | [] => some []
  | a :: l =>
    match f a, optMap f l with
    | some b, some bs => some (b :: bs)
    | _, _ => none

/-- Modelled from the spec: `Alphabet.encode_multiple`, semantically the
element-wise application of `encode`. -/
def encode_multiple (alph : Alphabet) (syms : List Char) : Option (List Nat) :=
  optMap (alphEncode alph) syms

/-- Modelled from the spec: `Alphabet.decode_multiple`, semantically the
element-wise application of `decode`. -/
def decode_multiple (alph : Alphabet) (codes : List Int) : Option (List Char) :=
  optMap (alphDecode alph) codes

/-- Modelled from the spec: `Alphabet.extends`: `a` extends `b` iff `b`'s
ordered symbol list is a position-for-position leading segment of `a`'s. -/
def alphExtends (a b : Alphabet) : Bool := b.isPrefixOf a

/-- Embedding of a `Sequence` instance: the tag of its concrete Python class,
the alphabet returned by `get_alphabet()`, and the stored numpy code array
(`_seq_code`), represented by its dtype bit width and its values. -/
structure Sequence where
  kind : Nat
  alph : Alphabet
  width : Nat
  code : List Int
deriving Repr, DecidableEq

/-- Embedding of the `code` property setter: replaces the array, casting to
the dtype chosen for the current alphabet size, without validating values. -/
def Sequence.setCode (s : Sequence) (value : List Int) : Sequence :=
  let w := dtypeWidth s.alph.length
  { s with width := w, code := value.map (castUint w) }

/-- Embedding of the `symbols` property setter: encodes the symbols via
`encode_multiple` directly into an array of the chosen dtype. -/
def Sequence.setSymbols (s : Sequence) (syms : List Char) : Option Sequence :=
  let w := dtypeWidth s.alph.length
  (encode_multiple s.alph syms).map fun ns =>
    { s with width := w, code := ns.map (fun n => castUint w (Int.ofNat n)) }

/-- Embedding of `Sequence.__init__(sequence)`: a fresh instance of the given
concrete kind whose `symbols` property is assigned the given symbols. -/
def Sequence.make (kind : Nat) (alph : Alphabet) (syms : List Char) :
    Option Sequence :=
  Sequence.setSymbols { kind := kind, alph := alph, width := 0, code := [] } syms

/-- Embedding of the `symbols` property getter: decodes the full code array. -/
def Sequence.getSymbols (s : Sequence) : Option (List Char) :=
  decode_multiple s.alph s.code

/-- Embedding of `Sequence.copy(new_seq_code)`: a fresh instance of the same
concrete kind and alphabet whose `code` property is assigned either a copy of
the current code array or the supplied replacement array. -/
def Sequence.copy (s : Sequence) (new_seq_code : Option (List Int)) : Sequence :=
  Sequence.setCode { kind := s.kind, alph := s.alph, width := 0, code := [] }
    (new_seq_code.getD s.code)

/-- Embedding of `Sequence.reverse()`: copy with the reversed code array. -/
def Sequence.reverse (s : Sequence) : Sequence := s.copy (some s.code.reverse)

/-- Embedding of `Sequence.__add__`: concatenation, permitted iff one
alphabet extends the other; the copy is made from the operand whose alphabet
is the extending one. -/
def Sequence.add (a b : Sequence) : Option Sequence :=
  if alphExtends a.alph b.alph then
    some (a.copy (some (a.code ++ b.code)))
  else if alphExtends b.alph a.alph then
    some (b.copy (some (a.code ++ b.code)))
  else none

/-- Embedding of `Sequence.is_valid()`: `(self.code < len(alphabet)).all()`. -/
def Sequence.is_valid (s : Sequence) : Bool :=
  s.code.all fun c => decide (c < (s.alph.length : Int))

/-- Embedding of `Sequence.__len__`. -/
def Sequence.length (s : Sequence) : Nat := s.code.length

/-- Embedding of `Sequence.get_symbol_frequency()`: for each `(code, symbol)`
pair of the alphabet, in alphabet order, the number of positions of the code
array holding that code. -/
def Sequence.get_symbol_frequency (s : Sequence) : List (Char × Nat) :=
  s.alph.enum.map fun p =>
    (p.2, s.code.countP fun c => decide (c = (p.1 : Int)))

/-- Embedding of `Sequence.__setitem__` with an integer index: the item is a
single symbol; its code is written into the existing array (numpy casts the
stored value to the array's current dtype; the dtype is not re-evaluated). -/
def Sequence.setItemAt (s : Sequence) (i : Nat) (sym : Char) : Option Sequence :=
  (alphEncode s.alph sym).map fun n =>
    { s with code := s.code.set i (castUint s.width (n : Int)) }

/-- Write the values `vals` into `code` at consecutive positions starting at
`start` (embedding of a numpy slice assignment on the underlying array). -/
def setRange (code : List Int) (start : Nat) (vals : List Int) : List Int :=
  match vals with
  | [] => code
  | v :: vs => setRange (code.set start v) (start + 1) vs

/-- Embedding of `Sequence.__setitem__` with a slice index and a raw code
array right-hand side: the raw codes are written in place, cast by numpy to
the array's current dtype (the dtype is not re-evaluated). -/
def Sequence.setItemCodes (s : Sequence) (start : Nat) (vals : List Int) :
    Sequence :=
  { s with code := setRange s.code start (vals.map (castUint s.width)) }

/-- Embedding of `Sequence.__getitem__` with an index list: the selected
values are gathered (numpy fancy indexing copies) and handed to `copy`. -/
def Sequence.getItemIdx (s : Sequence) (idx : List Nat) : Sequence :=
  s.copy (some (idx.map fun i => s.code.getD i 0))

/-- A Python value a `Sequence` may be compared against with `==`. -/
inductive PyVal where
  | seq (s : Sequence)
  | str (t : List Char)
  | symList (l : List Char)

/-- Embedding of `Sequence.__eq__`: false unless the other operand is a
sequence of the same concrete kind; then alphabets and code arrays must be
equal (numpy's `array_equal` compares element values). -/
def Sequence.pyEq (s : Sequence) : PyVal → Bool
  | .seq t => s.kind == t.kind && s.alph == t.alph && s.code == t.code
  | .str _ => false
  | .symList _ => false

/-! ## Basic lemmas about the embedding -/

lemma two_pow_pos (w : Nat) : (0 : Int) < (2 : Int) ^ w := by positivity

lemma castUint_nonneg (w : Nat) (v : Int) : 0 ≤ castUint w v :=
  Int.emod_nonneg v (by positivity)

lemma castUint_lt (w : Nat) (v : Int) : castUint w v < (2 : Int) ^ w :=
  Int.emod_lt_of_pos v (two_pow_pos w)

lemma castUint_eq_self {w : Nat} {v : Int} (h0 : 0 ≤ v)
    (h1 : v < (2 : Int) ^ w) : castUint w v = v :=
  Int.emod_eq_of_lt h0 h1

lemma dtypeWidth_mono {m n : Nat} (h : m ≤ n) : dtypeWidth m ≤ dtypeWidth n := by
  unfold dtypeWidth _size_uint8 _size_uint16 _size_uint32
  split_ifs <;> omega

lemma le_two_pow_dtypeWidth {n : Nat} (h : n ≤ 2 ^ 64) :
    n ≤ 2 ^ dtypeWidth n := by
  unfold dtypeWidth _size_uint8 _size_uint16 _size_uint32
  split_ifs with h1 h2 h3 <;> norm_num <;> omega

lemma optMap_eq_some_of {f : α → Option β} {g : α → β} :
    ∀ {l : List α}, (∀ a ∈ l, f a = some (g a)) → optMap f l = some (l.map g)
  | [], _ => rfl
  | a :: l, h => by
    have ha : f a = some (g a) := h a (List.mem_cons_self a l)
    have hl : optMap f l = some (l.map g) :=
      optMap_eq_some_of fun x hx => h x (List.mem_cons_of_mem a hx)
    simp [optMap, ha, hl]

lemma optMap_eq_none_of_mem {f : α → Option β} :
    ∀ {l : List α} {a : α}, a ∈ l → f a = none → optMap f l = none
  | b :: l, a, ha, hf => by
    rcases List.mem_cons.mp ha with rfl | ha'
    · simp [optMap, hf]
    · have := optMap_eq_none_of_mem ha' hf
      simp only [optMap, this]
      cases f b <;> rfl

/-! ## C2: dtype width selection -/

/-- C2: whenever the code array is replaced wholesale (construction,
`symbols` assignment, `code` assignment), the element width is chosen as the
smallest of 8, 16, 32, 64 bits whose maximum representable value is at least
`alphabet_size - 1` (8-bit iff size ≤ 256, 16-bit iff 256 < size ≤ 65536, and
so on); in-place element mutation does not re-evaluate the width. -/
theorem C2_dtype_width_selection :
    (∀ n : Nat,
      (dtypeWidth n = 8 ↔ n ≤ 256)
      ∧ (dtypeWidth n = 16 ↔ 256 < n ∧ n ≤ 65536)
      ∧ (dtypeWidth n = 32 ↔ 65536 < n ∧ n ≤ 4294967296)
      ∧ (dtypeWidth n = 64 ↔ 4294967296 < n))
    ∧ (∀ n : Nat, n ≤ 2 ^ 64 →
        n ≤ 2 ^ dtypeWidth n
        ∧ ∀ w ∈ [8, 16, 32, 64], n ≤ 2 ^ w → dtypeWidth n ≤ w)
    ∧ (∀ (s : Sequence) (v : List Int),
        (s.setCode v).width = dtypeWidth s.alph.length)
    ∧ (∀ (s : Sequence) (syms : List Char) (s' : Sequence),
        s.setSymbols syms = some s' → s'.width = dtypeWidth s.alph.length)
    ∧ (∀ (kind : Nat) (alph : Alphabet) (syms : List Char) (s' : Sequence),
        Sequence.make kind alph syms = some s' → s'.width = dtypeWidth alph.length)
    ∧ (∀ (s : Sequence) (i : Nat) (sym : Char) (s' : Sequence),
        s.setItemAt i sym = some s' → s'.width = s.width) := by
  refine ⟨?_, ?_, ?_, ?_, ?_, ?_⟩
  · intro n
    unfold dtypeWidth _size_uint8 _size_uint16 _size_uint32
    refine ⟨?_, ?_, ?_, ?_⟩ <;> split_ifs <;> omega
  · intro n hn
    refine ⟨le_two_pow_dtypeWidth hn, ?_⟩
    intro w hw hnw
    unfold dtypeWidth _size_uint8 _size_uint16 _size_uint32
    fin_cases hw <;> split_ifs <;> omega
  · intro s v; rfl
  · intro s syms s' h
    unfold Sequence.setSymbols at h
    rcases Option.map_eq_some'.mp h with ⟨ns, _, rfl⟩
    rfl
  · intro kind alph syms s' h
    unfold Sequence.make Sequence.setSymbols at h
    rcases Option.map_eq_some'.mp h with ⟨ns, _, rfl⟩
    rfl
  · intro s i sym s' h
    unfold Sequence.setItemAt at h
    rcases Option.map_eq_some'.mp h with ⟨n, _, rfl⟩
    rfl

/-- Witness for C2 at concrete inputs. -/
theorem C2_dtype_width_selection_witness :
    (300 ≤ 2 ^ 64 ∧ 300 ≤ 2 ^ dtypeWidth 300)
    ∧ (Sequence.setItemAt ⟨0, ['A', 'C'], 8, [0, 1]⟩ 0 'C'
        = some ⟨0, ['A', 'C'], 8, [1, 1]⟩
      ∧ (⟨0, ['A', 'C'], 8, [1, 1]⟩ : Sequence).width
        = (⟨0, ['A', 'C'], 8, [0, 1]⟩ : Sequence).width) :=
  ⟨⟨by norm_num, (C2_dtype_width_selection.2.1 300 (by norm_num)).1⟩,
   by decide,
   C2_dtype_width_selection.2.2.2.2.2 ⟨0, ['A', 'C'], 8, [0, 1]⟩ 0 'C'
     ⟨0, ['A', 'C'], 8, [1, 1]⟩ (by decide)⟩

/-! ## C7: equality semantics -/

/-- C7: two sequences compare equal iff they are the same concrete kind with
equal alphabets and element-wise equal code arrays, and comparing a sequence
to a raw string or symbol list is always false, even when symbols match. -/
theorem C7_equality_semantics :
    ∀ s t : Sequence,
      (s.pyEq (.seq t) = true ↔ s.kind = t.kind ∧ s.alph = t.alph ∧ s.code = t.code)
      ∧ (∀ l : List Char, s.pyEq (.str l) = false ∧ s.pyEq (.symList l) = false) := by
  intro s t
  constructor
  · simp [Sequence.pyEq, and_assoc]
  · intro l
    exact ⟨rfl, rfl⟩

/-! ## C4: is_valid -/

/-- C4: for every sequence whose stored codes are non-negative (the unsigned
dtype invariant), `is_valid` returns true iff every code lies in
`[0, alphabet_size)`; in particular it is false when a code is at least the
alphabet size. -/
theorem C4_is_valid_range :
    ∀ s : Sequence, (∀ c ∈ s.code, 0 ≤ c) →
      (s.is_valid = true ↔ ∀ c ∈ s.code, 0 ≤ c ∧ c < (s.alph.length : Int)) := by
  intro s hnn
  simp only [Sequence.is_valid, List.all_eq_true, decide_eq_true_eq]
  constructor
  · intro h c hc
    exact ⟨hnn c hc, h c hc⟩
  · intro h c hc
    exact (h c hc).2

/-- Witness for C4 at a concrete sequence. -/
theorem C4_is_valid_range_witness :
    (Sequence.is_valid ⟨0, ['A', 'C'], 8, [0, 5]⟩ = true
      ↔ ∀ c ∈ (⟨0, ['A', 'C'], 8, [0, 5]⟩ : Sequence).code,
          0 ≤ c ∧ c < ((⟨0, ['A', 'C'], 8, [0, 5]⟩ : Sequence).alph.length : Int))
    ∧ Sequence.is_valid ⟨0, ['A', 'C'], 8, [0, 5]⟩ = false :=
  ⟨C4_is_valid_range ⟨0, ['A', 'C'], 8, [0, 5]⟩ (by decide), by decide⟩

/-! ## C5: raw code assignment is unchecked; errors surface on decoding -/

/-- C5: assigning a raw integer array to the `code` property always succeeds:
the values are stored (cast to the chosen dtype) with no membership
validation, and the alphabet and kind are untouched; a sequence holding a
code outside `[0, alphabet_size)` fails only when decoding is attempted
(`symbols` access returns the decoding error). -/
theorem C5_raw_code_assignment_unchecked :
    ∀ (s : Sequence) (value : List Int),
      (s.setCode value).code = value.map (castUint (dtypeWidth s.alph.length))
      ∧ (s.setCode value).alph = s.alph
      ∧ (s.setCode value).kind = s.kind
      ∧ (∀ (t : Sequence) (c : Int), c ∈ t.code →
          ¬(0 ≤ c ∧ c < (t.alph.length : Int)) → t.getSymbols = none) := by
  intro s value
  refine ⟨rfl, rfl, rfl, ?_⟩
  intro t c hc hbad
  have hdec : alphDecode t.alph c = none := by
    unfold alphDecode
    split_ifs with hneg
    · rfl
    · have h1 : (t.alph.length : Int) ≤ c := by omega
      have h2 : t.alph.length ≤ c.toNat := by omega
      exact List.getElem?_eq_none h2
  exact optMap_eq_none_of_mem hc hdec

/-- Witness for C5 at a concrete sequence with an out-of-range code. -/
theorem C5_raw_code_assignment_unchecked_witness :
    (Sequence.setCode ⟨0, ['A'], 8, []⟩ [7]).code = [7]
    ∧ Sequence.getSymbols ⟨0, ['A'], 8, [7]⟩ = none :=
  ⟨by decide,
   (C5_raw_code_assignment_unchecked ⟨0, ['A'], 8, []⟩ [7]).2.2.2
     ⟨0, ['A'], 8, [7]⟩ 7 (by decide) (by decide)⟩

/-! ## C1: encode/decode round trip -/

/-- C1: for every sequence whose codes are all valid and whose alphabet obeys
the alphabet invariants (distinct symbols, size within numpy's addressable
range), decoding `symbols` and constructing a sequence of the same kind from
them yields a sequence equal to the original. -/
theorem C1_symbols_roundtrip :
    ∀ s : Sequence, s.alph.Nodup → s.alph.length ≤ 2 ^ 64 →
      (∀ c ∈ s.code, 0 ≤ c ∧ c < (s.alph.length : Int)) →
      ∃ syms s', s.getSymbols = some syms
        ∧ Sequence.make s.kind s.alph syms = some s'
        ∧ s'.pyEq (.seq s) = true := by
  intro s hnd hsize hval
  have hlt : ∀ c ∈ s.code, c.toNat < s.alph.length := by
    intro c hc
    have := hval c hc
    omega
  have hdec : ∀ c ∈ s.code,
      alphDecode s.alph c = some (s.alph.getD c.toNat 'A') := by
    intro c hc
    have h0 := (hval c hc).1
    have hl := hlt c hc
    unfold alphDecode
    rw [if_neg (by omega), List.getElem?_eq_getElem hl]
    exact congrArg some (List.getD_eq_getElem s.alph 'A' hl).symm
  have hsyms : s.getSymbols
      = some (s.code.map fun c => s.alph.getD c.toNat 'A') :=
    optMap_eq_some_of hdec
  have hmemg : ∀ c ∈ s.code, s.alph.getD c.toNat 'A' ∈ s.alph := by
    intro c hc
    have hl := hlt c hc
    rw [List.getD_eq_getElem s.alph 'A' hl]
    exact List.getElem_mem hl
  have henc : ∀ x ∈ s.code.map (fun c => s.alph.getD c.toNat 'A'),
      alphEncode s.alph x = some (s.alph.indexOf x) := by
    intro x hx
    rcases List.mem_map.mp hx with ⟨c, hc, rfl⟩
    unfold alphEncode
    rw [if_pos (hmemg c hc)]
  have hidx : ∀ c ∈ s.code,
      s.alph.indexOf (s.alph.getD c.toNat 'A') = c.toNat := by
    intro c hc
    have hl := hlt c hc
    have hgc : s.alph.getD c.toNat 'A' = s.alph[c.toNat] :=
      List.getD_eq_getElem s.alph 'A' hl
    have hmem := hmemg c hc
    have hil : s.alph.indexOf (s.alph.getD c.toNat 'A') < s.alph.length :=
      List.indexOf_lt_length.mpr hmem
    have hget : s.alph[s.alph.indexOf (s.alph.getD c.toNat 'A')]
        = s.alph.getD c.toNat 'A' :=
      List.getElem_indexOf hil
    have heq : s.alph[s.alph.indexOf (s.alph.getD c.toNat 'A')]
        = s.alph[c.toNat] := by
      rw [hget, hgc]
    exact (List.Nodup.getElem_inj_iff hnd).mp heq
  have hcomp : ∀ c ∈ s.code,
      ((fun n : Nat => castUint (dtypeWidth s.alph.length) (Int.ofNat n))
        ∘ s.alph.indexOf ∘ (fun c => s.alph.getD c.toNat 'A')) c = id c := by
    intro c hc
    have h0 := (hval c hc).1
    have h1 := (hval c hc).2
    simp only [Function.comp_apply, hidx c hc, id_eq]
    have hcv : Int.ofNat c.toNat = c := Int.toNat_of_nonneg h0
    rw [hcv]
    refine castUint_eq_self h0 ?_
    have hw : s.alph.length ≤ 2 ^ dtypeWidth s.alph.length :=
      le_two_pow_dtypeWidth hsize
    have h2 : ((s.alph.length : Nat) : Int)
        ≤ (((2 : Nat) ^ dtypeWidth s.alph.length : Nat) : Int) := by
      exact_mod_cast hw
    push_cast at h2
    omega
  have hcode : (s.code.map
      ((fun n : Nat => castUint (dtypeWidth s.alph.length) (Int.ofNat n))
        ∘ s.alph.indexOf ∘ (fun c => s.alph.getD c.toNat 'A'))) = s.code := by
    calc s.code.map _ = s.code.map id := List.map_congr_left hcomp
      _ = s.code := List.map_id s.code
  have hmake : Sequence.make s.kind s.alph
      (s.code.map fun c => s.alph.getD c.toNat 'A')
      = some ⟨s.kind, s.alph, dtypeWidth s.alph.length, s.code⟩ := by
    unfold Sequence.make Sequence.setSymbols encode_multiple
    rw [optMap_eq_some_of henc]
    simp only [Option.map_some', List.map_map]
    rw [hcode]
  refine ⟨_, _, hsyms, hmake, ?_⟩
  simp [Sequence.pyEq]

/-- Witness for C1 at the DNA scenario sequence. -/
theorem C1_symbols_roundtrip_witness :
    ∃ syms s',
      Sequence.getSymbols ⟨0, ['A', 'C', 'G', 'T'], 8, [0, 1, 2, 3, 0]⟩ = some syms
      ∧ Sequence.make 0 ['A', 'C', 'G', 'T'] syms = some s'
      ∧ s'.pyEq (.seq ⟨0, ['A', 'C', 'G', 'T'], 8, [0, 1, 2, 3, 0]⟩) = true :=
  C1_symbols_roundtrip ⟨0, ['A', 'C', 'G', 'T'], 8, [0, 1, 2, 3, 0]⟩
    (by decide) (by norm_num) (by decide)

/-! ## C3: concatenation -/

/-- A sequence is well formed when its stored codes fit the unsigned dtype
chosen for its alphabet (this holds for every sequence the public operations
produce) and its alphabet size is within numpy's addressable range. -/
def wellFormed (s : Sequence) : Prop :=
  (∀ c ∈ s.code, 0 ≤ c ∧ c < (2 : Int) ^ dtypeWidth s.alph.length)
  ∧ s.alph.length ≤ 2 ^ 64

instance (s : Sequence) : Decidable (wellFormed s) := by
  unfold wellFormed
  infer_instance

lemma isPrefixOf_length_le {a b : Alphabet} (h : b.isPrefixOf a) :
    b.length ≤ a.length :=
  (List.isPrefixOf_iff_prefix.mp h).length_le

lemma castUint_map_id {w : Nat} {l : List Int}
    (h : ∀ c ∈ l, 0 ≤ c ∧ c < (2 : Int) ^ w) : l.map (castUint w) = l := by
  have : ∀ c ∈ l, castUint w c = id c := by
    intro c hc
    exact castUint_eq_self (h c hc).1 (h c hc).2
  rw [List.map_congr_left this, List.map_id]

lemma two_pow_mono_int {m n : Nat} (h : m ≤ n) :
    (2 : Int) ^ m ≤ (2 : Int) ^ n :=
  pow_le_pow_right₀ (by norm_num) h

/-- C3: concatenation succeeds iff one operand's alphabet extends the
other's; on success the code array is `a`'s codes followed by `b`'s codes and
the kind and alphabet are those of the operand with the extending alphabet;
otherwise it fails with the incompatibility error. -/
theorem C3_concatenation :
    ∀ a b : Sequence, wellFormed a → wellFormed b →
      ((Sequence.add a b).isSome
        ↔ (alphExtends a.alph b.alph = true ∨ alphExtends b.alph a.alph = true))
      ∧ (∀ r, Sequence.add a b = some r →
          r.code = a.code ++ b.code
          ∧ (if alphExtends a.alph b.alph = true
              then r.kind = a.kind ∧ r.alph = a.alph
              else r.kind = b.kind ∧ r.alph = b.alph)) := by
  intro a b hwa hwb
  constructor
  · unfold Sequence.add
    split_ifs with h1 h2
    · simp [h1]
    · simp [h1, h2]
    · simp [h1, h2]
  · intro r hr
    unfold Sequence.add at hr
    split_ifs at hr with h1 h2
    · obtain rfl := Option.some_inj.mp hr
      refine ⟨?_, by simp [h1, Sequence.copy, Sequence.setCode]⟩
      show ((a.code ++ b.code).map (castUint (dtypeWidth a.alph.length))) = _
      refine castUint_map_id ?_
      intro c hc
      rcases List.mem_append.mp hc with hca | hcb
      · exact (hwa.1 c hca)
      · have hb := hwb.1 c hcb
        have hlen : b.alph.length ≤ a.alph.length := isPrefixOf_length_le h1
        have := two_pow_mono_int (dtypeWidth_mono hlen)
        exact ⟨hb.1, lt_of_lt_of_le hb.2 this⟩
    · obtain rfl := Option.some_inj.mp hr
      refine ⟨?_, by simp [h1, Sequence.copy, Sequence.setCode]⟩
      show ((a.code ++ b.code).map (castUint (dtypeWidth b.alph.length))) = _
      refine castUint_map_id ?_
      intro c hc
      rcases List.mem_append.mp hc with hca | hcb
      · have ha := hwa.1 c hca
        have hlen : a.alph.length ≤ b.alph.length := isPrefixOf_length_le h2
        have := two_pow_mono_int (dtypeWidth_mono hlen)
        exact ⟨ha.1, lt_of_lt_of_le ha.2 this⟩
      · exact (hwb.1 c hcb)

/-- Witness for C3: concatenating the DNA scenario sequence with its reverse. -/
theorem C3_concatenation_witness :
    (Sequence.add ⟨0, ['A', 'C', 'G', 'T'], 8, [0, 1, 2, 3, 0]⟩
        ⟨0, ['A', 'C', 'G', 'T'], 8, [0, 3, 2, 1, 0]⟩).isSome
      ↔ (alphExtends ['A', 'C', 'G', 'T'] ['A', 'C', 'G', 'T'] = true
          ∨ alphExtends ['A', 'C', 'G', 'T'] ['A', 'C', 'G', 'T'] = true) :=
  (C3_concatenation ⟨0, ['A', 'C', 'G', 'T'], 8, [0, 1, 2, 3, 0]⟩
    ⟨0, ['A', 'C', 'G', 'T'], 8, [0, 3, 2, 1, 0]⟩
    ⟨by decide, by norm_num⟩ ⟨by decide, by norm_num⟩).1

/-! ## C10: the unsigned-code invariant -/

/-- Every stored code is non-negative (the content of the unsigned dtype
invariant in the embedding). -/
def nonnegCode (s : Sequence) : Prop := ∀ c ∈ s.code, 0 ≤ c

instance (s : Sequence) : Decidable (nonnegCode s) := by
  unfold nonnegCode
  infer_instance

lemma nonnegCode_setCode (s : Sequence) (v : List Int) :
    nonnegCode (s.setCode v) := by
  intro c hc
  rcases List.mem_map.mp hc with ⟨x, _, rfl⟩
  exact castUint_nonneg _ x

lemma nonnegCode_copy (s : Sequence) (o : Option (List Int)) :
    nonnegCode (s.copy o) :=
  nonnegCode_setCode _ _

lemma setRange_nonneg {code vals : List Int}
    (hc : ∀ c ∈ code, 0 ≤ c) (hv : ∀ v ∈ vals, 0 ≤ v) :
    ∀ start, ∀ c ∈ setRange code start vals, 0 ≤ c := by
  induction vals generalizing code with
  | nil => exact fun _ c hc' => hc c hc'
  | cons v vs ih =>
    intro start c hc'
    refine ih ?_ (fun x hx => hv x (List.mem_cons_of_mem v hx)) (start + 1) c hc'
    intro x hx
    rcases List.mem_or_eq_of_mem_set hx with hx' | hxv
    · exact hc x hx'
    · exact hxv ▸ hv v (List.mem_cons_self v vs)

/-- C10: after every public operation (construction, `symbols` or `code`
assignment, indexed assignment, index selection, reversal, concatenation,
copy) every stored code is non-negative, because the array's dtype is
unsigned; therefore the upper-bound-only comparison of `is_valid` decides
full membership of every code in `[0, alphabet_size)`. -/
theorem C10_unsigned_code_invariant :
    (∀ (kind : Nat) (alph : Alphabet) (syms : List Char) (s' : Sequence),
        Sequence.make kind alph syms = some s' → nonnegCode s')
    ∧ (∀ (s : Sequence) (syms : List Char) (s' : Sequence),
        s.setSymbols syms = some s' → nonnegCode s')
    ∧ (∀ (s : Sequence) (v : List Int), nonnegCode (s.setCode v))
    ∧ (∀ (s : Sequence) (i : Nat) (sym : Char) (s' : Sequence),
        nonnegCode s → s.setItemAt i sym = some s' → nonnegCode s')
    ∧ (∀ (s : Sequence) (start : Nat) (vals : List Int),
        nonnegCode s → nonnegCode (s.setItemCodes start vals))
    ∧ (∀ (s : Sequence) (idx : List Nat), nonnegCode (s.getItemIdx idx))
    ∧ (∀ s : Sequence, nonnegCode s.reverse)
    ∧ (∀ (a b r : Sequence), Sequence.add a b = some r → nonnegCode r)
    ∧ (∀ (s : Sequence) (o : Option (List Int)), nonnegCode (s.copy o))
    ∧ (∀ s : Sequence, nonnegCode s →
        (s.is_valid = true ↔ ∀ c ∈ s.code, 0 ≤ c ∧ c < (s.alph.length : Int))) := by
  have hsetsym : ∀ (s : Sequence) (syms : List Char) (s' : Sequence),
      s.setSymbols syms = some s' → nonnegCode s' := by
    intro s syms s' h
    unfold Sequence.setSymbols at h
    rcases Option.map_eq_some'.mp h with ⟨ns, _, rfl⟩
    intro c hc
    rcases List.mem_map.mp hc with ⟨x, _, rfl⟩
    exact castUint_nonneg _ _
  refine ⟨?_, hsetsym, nonnegCode_setCode, ?_, ?_, ?_, ?_, ?_, nonnegCode_copy, ?_⟩
  · intro kind alph syms s' h
    exact hsetsym _ syms s' h
  · intro s i sym s' hnn h
    unfold Sequence.setItemAt at h
    rcases Option.map_eq_some'.mp h with ⟨n, _, rfl⟩
    intro c hc
    rcases List.mem_or_eq_of_mem_set hc with hc' | rfl
    · exact hnn c hc'
    · exact castUint_nonneg _ _
  · intro s start vals hnn
    unfold Sequence.setItemCodes
    intro c hc
    refine setRange_nonneg hnn ?_ start c hc
    intro v hv
    rcases List.mem_map.mp hv with ⟨x, _, rfl⟩
    exact castUint_nonneg _ _
  · intro s idx
    exact nonnegCode_copy _ _
  · intro s
    exact nonnegCode_copy _ _
  · intro a b r h
    unfold Sequence.add at h
    split_ifs at h
    · obtain rfl := Option.some_inj.mp h
      exact nonnegCode_copy _ _
    · obtain rfl := Option.some_inj.mp h
      exact nonnegCode_copy _ _
  · intro s hnn
    simp only [Sequence.is_valid, List.all_eq_true, decide_eq_true_eq]
    exact ⟨fun h c hc => ⟨hnn c hc, h c hc⟩, fun h c hc => (h c hc).2⟩

/-- Witness for C10: an in-range and an out-of-range raw assignment both
produce only non-negative stored codes. -/
theorem C10_unsigned_code_invariant_witness :
    nonnegCode (Sequence.setCode ⟨0, ['A', 'C'], 8, []⟩ [1, -3, 300])
    ∧ nonnegCode (Sequence.setItemCodes ⟨0, ['A', 'C'], 8, [0, 1]⟩ 0 [-1]) :=
  ⟨C10_unsigned_code_invariant.2.2.1 ⟨0, ['A', 'C'], 8, []⟩ [1, -3, 300],
   C10_unsigned_code_invariant.2.2.2.2.1 ⟨0, ['A', 'C'], 8, [0, 1]⟩ 0 [-1]
     (by decide)⟩

/-! ## C8: symbol frequencies -/

/-- A sequence holding the out-of-range code 5 over the one-symbol alphabet,
reachable through the unvalidated raw `code` assignment. -/
def seqC8 : Sequence := Sequence.setCode ⟨0, ['A'], 8, []⟩ [5]

/-- C8 counterexample: for a sequence holding an out-of-range code, the
frequency values do not sum to the sequence length (the stray code is counted
under no symbol), refuting the unrestricted sum clause of the claim. -/
theorem C8_frequency_sum_counterexample :
    ¬ (((seqC8.get_symbol_frequency).map Prod.snd).sum = seqC8.length) := by
  decide

lemma sum_map_add (l : List α) (f g : α → Nat) :
    (l.map fun x => f x + g x).sum = (l.map f).sum + (l.map g).sum := by
  induction l with
  | nil => rfl
  | cons a l ih => simp [ih]; omega

lemma indicator_sum (n : Nat) (a : Int) :
    ((List.range n).map fun (i : Nat) => if a = (i : Int) then 1 else 0).sum
      = if 0 ≤ a ∧ a < (n : Int) then 1 else 0 := by
  induction n with
  | zero =>
    rw [List.range_zero]
    simp only [List.map_nil, List.sum_nil]
    rw [if_neg (by omega)]
  | succ n ih =>
    rw [List.range_succ, List.map_append, List.sum_append, ih]
    simp only [List.map_cons, List.map_nil, List.sum_cons, List.sum_nil]
    have hcast : ((n + 1 : Nat) : Int) = (n : Int) + 1 := by push_cast; ring
    split_ifs <;> omega

lemma count_buckets (code : List Int) (n : Nat)
    (h : ∀ c ∈ code, 0 ≤ c ∧ c < (n : Int)) :
    ((List.range n).map fun (i : Nat) =>
      code.countP fun c => decide (c = (i : Int))).sum = code.length := by
  induction code with
  | nil => simp
  | cons a tl ih =>
    have ha := h a (List.mem_cons_self a tl)
    have htl : ∀ c ∈ tl, 0 ≤ c ∧ c < (n : Int) :=
      fun c hc => h c (List.mem_cons_of_mem a hc)
    have hcnt : ∀ i : Nat,
        ((a :: tl).countP fun c => decide (c = (i : Int)))
          = (tl.countP fun c => decide (c = (i : Int)))
            + (if a = (i : Int) then 1 else 0) := by
      intro i
      rw [List.countP_cons]
      simp
    calc ((List.range n).map fun (i : Nat) =>
            (a :: tl).countP fun c => decide (c = (i : Int))).sum
        = ((List.range n).map fun (i : Nat) =>
            (tl.countP fun c => decide (c = (i : Int)))
              + (if a = (i : Int) then 1 else 0)).sum := by
          exact congrArg List.sum (List.map_congr_left fun i _ => hcnt i)
      _ = ((List.range n).map fun (i : Nat) =>
            tl.countP fun c => decide (c = (i : Int))).sum
            + ((List.range n).map fun (i : Nat) =>
                if a = (i : Int) then 1 else 0).sum := by
          exact sum_map_add _ _ _
      _ = tl.length + 1 := by
          rw [ih htl, indicator_sum, if_pos ha]
      _ = (a :: tl).length := by simp [Nat.add_comm]

/-- C8 (amended): `get_symbol_frequency` returns, in alphabet order, one
entry per alphabet symbol (including zero counts) whose value is the number
of occurrences of the symbol's code in the code array; whenever every stored
code is valid — in particular for every sequence that was never the target of
a raw assignment of out-of-range codes — the values sum to the sequence
length (an out-of-range code is counted under no symbol). -/
theorem C8_symbol_frequency :
    ∀ s : Sequence,
      ((s.get_symbol_frequency).map Prod.fst = s.alph)
      ∧ (∀ i : Nat, ((s.get_symbol_frequency).map Prod.snd)[i]?
          = (s.alph[i]?).map fun _ =>
              s.code.countP fun c => decide (c = (i : Int)))
      ∧ ((∀ c ∈ s.code, 0 ≤ c ∧ c < (s.alph.length : Int)) →
          ((s.get_symbol_frequency).map Prod.snd).sum = s.length) := by
  intro s
  refine ⟨?_, ?_, ?_⟩
  · unfold Sequence.get_symbol_frequency
    rw [List.map_map]
    have : (Prod.fst ∘ fun p : Nat × Char =>
        ((p.2, s.code.countP fun c => decide (c = (p.1 : Int))) : Char × Nat))
        = Prod.snd := rfl
    rw [this, List.enum_map_snd]
  · intro i
    unfold Sequence.get_symbol_frequency
    rw [List.map_map, List.getElem?_map, List.getElem?_enum]
    cases s.alph[i]? <;> rfl
  · intro hval
    unfold Sequence.get_symbol_frequency Sequence.length
    rw [List.map_map]
    have hfst : (Prod.snd ∘ fun p : Nat × Char =>
        ((p.2, s.code.countP fun c => decide (c = (p.1 : Int))) : Char × Nat))
        = (fun (i : Nat) => s.code.countP fun c => decide (c = (i : Int)))
            ∘ Prod.fst :=
      rfl
    rw [hfst, ← List.map_map, List.enum_map_fst]
    exact count_buckets s.code s.alph.length hval

/-- Witness for C8 at the valid DNA scenario sequence. -/
theorem C8_symbol_frequency_witness :
    ((Sequence.get_symbol_frequency
        ⟨0, ['A', 'C', 'G', 'T'], 8, [0, 1, 2, 3, 0]⟩).map Prod.snd).sum
      = Sequence.length ⟨0, ['A', 'C', 'G', 'T'], 8, [0, 1, 2, 3, 0]⟩ :=
  (C8_symbol_frequency ⟨0, ['A', 'C', 'G', 'T'], 8, [0, 1, 2, 3, 0]⟩).2.2
    (by decide)

/-! ## C6: indexing — views versus copies

To settle the ownership clause of the indexing contract we refine the array
embedding: a heap of numpy buffers, and arrays as views (a buffer id plus the
buffer positions the view maps to).  numpy basic slicing composes views;
fancy indexing allocates a fresh buffer; `copy(new_seq_code)` stores the
passed array without copying (`astype(..., copy=False)` on an array of the
same dtype returns the array itself). -/

abbrev Heap := List (List Int)

/-- A numpy array view: buffer id and the buffer positions it maps to. -/
structure NpArray where
  base : Nat
  idx : List Nat
deriving Repr, DecidableEq

/-- The element values an array view currently holds. -/
def readArr (h : Heap) (a : NpArray) : List Int :=
  a.idx.map fun i => (h.getD a.base []).getD i 0

/-- In-place write of value `v` at position `pos` of the view `a`. -/
def hWrite (h : Heap) (a : NpArray) (pos : Nat) (v : Int) : Heap :=
  match a.idx[pos]? with
  | some j => h.set a.base ((h.getD a.base []).set j v)
  | none => h

/-- A `Sequence` instance in the heap model. -/
structure HSeq where
  kind : Nat
  alph : Alphabet
  arr : NpArray
deriving Repr, DecidableEq

/-- `__getitem__` with a slice index: numpy basic slicing yields a view into
the same buffer; `copy` hands that view to the new instance uncopied. -/
def HSeq.getSlice (s : HSeq) (start stop : Nat) : HSeq :=
  { s with arr := { base := s.arr.base,
                    idx := (s.arr.idx.drop start).take (stop - start) } }

/-- `__getitem__` with an index list: numpy fancy indexing gathers the
selected values into a fresh buffer; `copy` receives that fresh array. -/
def HSeq.getFancy (h : Heap) (s : HSeq) (sel : List Nat) : Heap × HSeq :=
  let vals := sel.map fun i => (readArr h s.arr).getD i 0
  (h ++ [vals],
   { s with arr := { base := h.length, idx := List.range sel.length } })

/-- The 5-element DNA scenario buffer. -/
def heapC6 : Heap := [[0, 1, 2, 3, 0]]

/-- The DNA scenario sequence viewing the whole buffer 0. -/
def seqC6 : HSeq := ⟨0, ['A', 'C', 'G', 'T'], ⟨0, [0, 1, 2, 3, 4]⟩⟩

/-- The subsequence `seqC6[1:3]`. -/
def sliceC6 : HSeq := seqC6.getSlice 1 3

/-- C6 counterexample: a slice subsequence is a view, not a copy — writing
through `seqC6[1:3]` changes the values `seqC6` holds, refuting the claim
that the selected values are copied into a new array for every
multi-position index. -/
theorem C6_getitem_counterexample :
    readArr heapC6 seqC6.arr = [0, 1, 2, 3, 0]
    ∧ readArr heapC6 sliceC6.arr = [1, 2]
    ∧ readArr (hWrite heapC6 sliceC6.arr 0 3) seqC6.arr ≠ [0, 1, 2, 3, 0] := by
  decide

lemma getD_append_self (h : Heap) (vals : List Int) :
    (h ++ [vals]).getD h.length [] = vals := by
  induction h with
  | nil => rfl
  | cons x h ih => simp [ih]

lemma getD_append_lt (h : Heap) (vals : List Int) {base : Nat}
    (hb : base < h.length) :
    (h ++ [vals]).getD base [] = h.getD base [] := by
  induction h generalizing base with
  | nil => exact absurd hb (by simp)
  | cons x h ih =>
    cases base with
    | zero => rfl
    | succ n => simpa using ih (by simpa using hb)

lemma getD_set_ne (h : Heap) (buf : List Int) {i j : Nat} (hne : i ≠ j) :
    (h.set i buf).getD j [] = h.getD j [] := by
  rw [List.getD_eq_getElem?_getD, List.getD_eq_getElem?_getD,
    List.getElem?_set_ne hne]

lemma range_map_getD (l : List Int) :
    (List.range l.length).map (fun (i : Nat) => l.getD i 0) = l := by
  induction l with
  | nil => rfl
  | cons a l ih =>
    rw [List.length_cons, List.range_succ_eq_map, List.map_cons, List.map_map]
    have hc : ((fun (i : Nat) => (a :: l).getD i 0) ∘ Nat.succ)
        = fun (i : Nat) => l.getD i 0 := by
      funext i
      simp [Function.comp_apply, Nat.succ_eq_add_one]
    rw [hc, ih]
    simp

/-- C6 (amended): `s[idx]` is a new instance of the same concrete kind
sharing `s`'s alphabet and holding exactly the values selected by `idx`.
For an index list, the values are gathered into a fresh buffer: writing
through the result does not change `s` and writing through `s` does not
change the result.  For a slice, the result holds the selected sub-range but
shares `s`'s buffer (a view, not a copy — see the counterexample). -/
theorem C6_getitem_semantics :
    ∀ (h : Heap) (s : HSeq) (sel : List Nat),
      s.arr.base < h.length →
      ((HSeq.getFancy h s sel).2.kind = s.kind
      ∧ (HSeq.getFancy h s sel).2.alph = s.alph
      ∧ readArr (HSeq.getFancy h s sel).1 (HSeq.getFancy h s sel).2.arr
          = sel.map (fun i => (readArr h s.arr).getD i 0)
      ∧ (readArr (HSeq.getFancy h s sel).1 (HSeq.getFancy h s sel).2.arr).length
          = sel.length
      ∧ readArr (HSeq.getFancy h s sel).1 s.arr = readArr h s.arr
      ∧ (∀ pos v,
          readArr (hWrite (HSeq.getFancy h s sel).1
              (HSeq.getFancy h s sel).2.arr pos v) s.arr
            = readArr (HSeq.getFancy h s sel).1 s.arr)
      ∧ (∀ pos v,
          readArr (hWrite (HSeq.getFancy h s sel).1 s.arr pos v)
              (HSeq.getFancy h s sel).2.arr
            = readArr (HSeq.getFancy h s sel).1 (HSeq.getFancy h s sel).2.arr))
      ∧ (∀ a b : Nat,
          (s.getSlice a b).kind = s.kind
          ∧ (s.getSlice a b).alph = s.alph
          ∧ readArr h (s.getSlice a b).arr
              = ((readArr h s.arr).drop a).take (b - a)) := by
  intro h s sel hb
  set vals : List Int := sel.map fun i => (readArr h s.arr).getD i 0 with hvals
  have hvlen : vals.length = sel.length := by rw [hvals, List.length_map]
  have hread_new : ∀ h₂ : Heap, h₂.getD h.length [] = vals →
      readArr h₂ ⟨h.length, List.range sel.length⟩ = vals := by
    intro h₂ hh
    unfold readArr
    simp only [hh]
    rw [← hvlen]
    exact range_map_getD vals
  have hfancy_heap : (HSeq.getFancy h s sel).1 = h ++ [vals] := rfl
  have hfancy_arr : (HSeq.getFancy h s sel).2.arr
      = ⟨h.length, List.range sel.length⟩ := rfl
  have hget_new : readArr (HSeq.getFancy h s sel).1 (HSeq.getFancy h s sel).2.arr
      = vals := by
    rw [hfancy_heap, hfancy_arr]
    exact hread_new _ (getD_append_self h vals)
  have hold : readArr (h ++ [vals]) s.arr = readArr h s.arr := by
    unfold readArr
    rw [getD_append_lt h vals hb]
  refine ⟨⟨rfl, rfl, hget_new, by rw [hget_new, hvlen], ?_, ?_, ?_⟩, ?_⟩
  · rw [hfancy_heap]
    exact hold
  · intro pos v
    rw [hfancy_heap, hfancy_arr]
    show readArr (hWrite (h ++ [vals]) ⟨h.length, List.range sel.length⟩ pos v)
        s.arr = readArr (h ++ [vals]) s.arr
    unfold hWrite
    cases hj : (List.range sel.length)[pos]? with
    | none => rfl
    | some j =>
      unfold readArr
      rw [getD_set_ne _ _ (by omega : h.length ≠ s.arr.base)]
  · intro pos v
    rw [hget_new, hfancy_heap]
    show readArr (hWrite (h ++ [vals]) s.arr pos v)
        (HSeq.getFancy h s sel).2.arr = vals
    rw [hfancy_arr]
    unfold hWrite
    cases hj : s.arr.idx[pos]? with
    | none => exact hread_new _ (getD_append_self h vals)
    | some j =>
      refine hread_new _ ?_
      have hset : ((h ++ [vals]).set s.arr.base
            (((h ++ [vals]).getD s.arr.base []).set j v)).getD h.length []
          = (h ++ [vals]).getD h.length [] :=
        getD_set_ne _ _ (by omega : s.arr.base ≠ h.length)
      exact hset.trans (getD_append_self h vals)
  · intro a b
    refine ⟨rfl, rfl, ?_⟩
    unfold HSeq.getSlice readArr
    simp only
    rw [List.map_take, List.map_drop]

/-- Witness for C6: fancy indexing on the DNA scenario sequence. -/
theorem C6_getitem_semantics_witness :
    readArr (HSeq.getFancy heapC6 seqC6 [0, 2, 4]).1
        (HSeq.getFancy heapC6 seqC6 [0, 2, 4]).2.arr
      = [0, 2, 4].map (fun i => (readArr heapC6 seqC6.arr).getD i 0) :=
  ((C6_getitem_semantics heapC6 seqC6 [0, 2, 4] (by decide)).1).2.2.1

/-! ## C9: the hybrid-36 codec

Modelled from the spec: the hybrid-36 module itself is not among the given
sources (only its tests are).  Strings are embedded as lists of ASCII codes.
Numbers representable in plain decimal of the width are zero-padded decimal;
larger numbers use base 36 with digits `0-9` then `A-Z` (codes 10–35) for the
first extension range, then `a-z` for the second. -/

/-- Big-endian fixed-width base-`b` digits of `n` (width `w`). -/
def toDigitsFixed (b : Nat) : Nat → Nat → List Nat
  | 0, _ => []
  | w + 1, n => toDigitsFixed b w (n / b) ++ [n % b]

/-- Value of a big-endian base-`b` digit list. -/
def fromDigits (b : Nat) (ds : List Nat) : Nat :=
  ds.foldl (fun acc d => acc * b + d) 0

/-- ASCII code of the decimal digit `d`. -/
def decDigitChar (d : Nat) : Nat := 48 + d

/-- ASCII code of base-36 digit `d` with uppercase letters for 10–35. -/
def digit36Upper (d : Nat) : Nat := if d < 10 then 48 + d else 55 + d

/-- ASCII code of base-36 digit `d` with lowercase letters for 10–35. -/
def digit36Lower (d : Nat) : Nat := if d < 10 then 48 + d else 87 + d

/-- Value of an ASCII decimal digit. -/
def decDigitVal (c : Nat) : Option Nat :=
  if 48 ≤ c ∧ c ≤ 57 then some (c - 48) else none

/-- Value of an ASCII base-36 digit written with uppercase letters. -/
def val36Upper (c : Nat) : Option Nat :=
  if 48 ≤ c ∧ c ≤ 57 then some (c - 48)
  else if 65 ≤ c ∧ c ≤ 90 then some (c - 55)
  else none

/-- Value of an ASCII base-36 digit written with lowercase letters. -/
def val36Lower (c : Nat) : Option Nat :=
  if 48 ≤ c ∧ c ≤ 57 then some (c - 48)
  else if 97 ≤ c ∧ c ≤ 122 then some (c - 87)
  else none

/-- Modelled from the spec: `max_hybrid36_number(width)`, the largest integer
encodable in `width` characters (decimal range plus two letter ranges). -/
def max_hybrid36_number (width : Nat) : Nat :=
  10 ^ width + 2 * 26 * 36 ^ (width - 1) - 1

/-- Modelled from the spec: `encode_hybrid36(number, width)`.  Fails (range
error) if the number exceeds the encodable maximum. -/
def encode_hybrid36 (number width : Nat) : Option (List Nat) :=
  if number < 10 ^ width then
    some ((toDigitsFixed 10 width number).map decDigitChar)
  else if number ≤ max_hybrid36_number width then
    if number < 10 ^ width + 26 * 36 ^ (width - 1) then
      some ((toDigitsFixed 36 width
        (number - 10 ^ width + 10 * 36 ^ (width - 1))).map digit36Upper)
    else
      some ((toDigitsFixed 36 width
        (number - 10 ^ width - 26 * 36 ^ (width - 1)
          + 10 * 36 ^ (width - 1))).map digit36Lower)
  else none

/-- Modelled from the spec: `decode_hybrid36(string)`, dispatching on the
first character: decimal digit, uppercase letter or lowercase letter. -/
def decode_hybrid36 (s : List Nat) : Option Nat :=
  match s.head? with
  | none => none
  | some c =>
    if 48 ≤ c ∧ c ≤ 57 then
      (optMap decDigitVal s).map (fromDigits 10)
    else if 65 ≤ c ∧ c ≤ 90 then
      (optMap val36Upper s).map fun ds =>
        fromDigits 36 ds - 10 * 36 ^ (s.length - 1) + 10 ^ s.length
    else if 97 ≤ c ∧ c ≤ 122 then
      (optMap val36Lower s).map fun ds =>
        fromDigits 36 ds - 10 * 36 ^ (s.length - 1) + 10 ^ s.length
          + 26 * 36 ^ (s.length - 1)
    else none

lemma toDigitsFixed_length (b : Nat) :
    ∀ (w n : Nat), (toDigitsFixed b w n).length = w
  | 0, _ => rfl
  | w + 1, n => by
    unfold toDigitsFixed
    rw [List.length_append, toDigitsFixed_length b w (n / b)]
    simp

lemma toDigitsFixed_lt (b : Nat) (hb : 0 < b) :
    ∀ (w n : Nat), ∀ d ∈ toDigitsFixed b w n, d < b := by
  intro w
  induction w with
  | zero => intro n d hd; exact absurd hd (by simp [toDigitsFixed])
  | succ w ih =>
    intro n d hd
    unfold toDigitsFixed at hd
    rcases List.mem_append.mp hd with hd' | hd'
    · exact ih (n / b) d hd'
    · rw [List.mem_singleton.mp hd']
      exact Nat.mod_lt n hb

lemma fromDigits_append_single (b : Nat) (ds : List Nat) (d : Nat) :
    fromDigits b (ds ++ [d]) = fromDigits b ds * b + d := by
  unfold fromDigits
  rw [List.foldl_append]
  rfl

lemma fromDigits_toDigitsFixed (b : Nat) (hb : 0 < b) :
    ∀ (w n : Nat), n < b ^ w → fromDigits b (toDigitsFixed b w n) = n := by
  intro w
  induction w with
  | zero =>
    intro n hn
    rw [pow_zero] at hn
    have hn0 : n = 0 := by omega
    subst hn0
    rfl
  | succ w ih =>
    intro n hn
    unfold toDigitsFixed
    rw [fromDigits_append_single, ih (n / b) ?_]
    · rw [Nat.mul_comm]
      exact Nat.div_add_mod n b
    · rw [Nat.div_lt_iff_lt_mul hb, ← pow_succ]
      exact hn

lemma toDigitsFixed_head (b : Nat) :
    ∀ (w n : Nat), 1 ≤ w →
      (toDigitsFixed b w n).head? = some (n / b ^ (w - 1) % b) := by
  intro w
  induction w with
  | zero => omega
  | succ w ih =>
    intro n _
    unfold toDigitsFixed
    cases w with
    | zero => simp [toDigitsFixed]
    | succ w' =>
      rw [List.head?_append, ih (n / b) (by omega)]
      simp only [Option.or_some, Nat.add_sub_cancel]
      rw [Nat.div_div_eq_div_mul, ← pow_succ']

lemma optMap_map_id {f : β → Option α} {m : α → β} :
    ∀ {l : List α}, (∀ a ∈ l, f (m a) = some a) → optMap f (l.map m) = some l
  | [], _ => rfl
  | a :: l, h => by
    have ha : f (m a) = some a := h a (List.mem_cons_self a l)
    have hl : optMap f (l.map m) = some l :=
      optMap_map_id fun x hx => h x (List.mem_cons_of_mem a hx)
    simp [optMap, ha, hl]

lemma decDigitVal_decDigitChar {d : Nat} (h : d < 10) :
    decDigitVal (decDigitChar d) = some d := by
  unfold decDigitVal decDigitChar
  rw [if_pos (by omega)]
  congr 1
  omega

lemma val36Upper_digit36Upper {d : Nat} (h : d < 36) :
    val36Upper (digit36Upper d) = some d := by
  unfold val36Upper digit36Upper
  split_ifs <;> (congr 1; omega)

lemma val36Lower_digit36Lower {d : Nat} (h : d < 36) :
    val36Lower (digit36Lower d) = some d := by
  unfold val36Lower digit36Lower
  split_ifs <;> (congr 1; omega)

/-- C9: for every width and every number in the valid domain
`[0, max_hybrid36_number width]`, decoding the encoding yields the number
back, and the domain-delimiting constants for widths 4 and 5 are 2436111
and 87440031. -/
theorem C9_hybrid36_roundtrip :
    (∀ w n : Nat, 1 ≤ w → n ≤ max_hybrid36_number w →
      ∃ s, encode_hybrid36 n w = some s ∧ decode_hybrid36 s = some n)
    ∧ max_hybrid36_number 4 = 2436111
    ∧ max_hybrid36_number 5 = 87440031 := by
  refine ⟨?_, by norm_num [max_hybrid36_number], by norm_num [max_hybrid36_number]⟩
  intro w n hw hn
  have hQ : 0 < 36 ^ (w - 1) := Nat.pos_pow_of_pos _ (by norm_num)
  have h36 : 36 ^ w = 36 ^ (w - 1) * 36 := by
    conv_lhs => rw [← Nat.sub_add_cancel hw]
    rw [pow_succ]
  unfold encode_hybrid36
  by_cases hdec : n < 10 ^ w
  · rw [if_pos hdec]
    refine ⟨_, rfl, ?_⟩
    have hd0 : n / 10 ^ (w - 1) % 10 < 10 := Nat.mod_lt _ (by norm_num)
    have hhead : ((toDigitsFixed 10 w n).map decDigitChar).head?
        = some (decDigitChar (n / 10 ^ (w - 1) % 10)) := by
      rw [List.head?_map, toDigitsFixed_head 10 w n hw]
      rfl
    unfold decode_hybrid36
    rw [hhead]
    dsimp only
    rw [if_pos (by unfold decDigitChar; omega)]
    rw [optMap_map_id fun d hd =>
      decDigitVal_decDigitChar (toDigitsFixed_lt 10 (by norm_num) w n d hd)]
    rw [Option.map_some', fromDigits_toDigitsFixed 10 (by norm_num) w n hdec]
  · rw [if_neg hdec, if_pos hn]
    unfold max_hybrid36_number at hn
    by_cases hupper : n < 10 ^ w + 26 * 36 ^ (w - 1)
    · rw [if_pos hupper]
      refine ⟨_, rfl, ?_⟩
      set m := n - 10 ^ w + 10 * 36 ^ (w - 1) with hm
      have hml : 10 * 36 ^ (w - 1) ≤ m := by omega
      have hmu : m < 36 ^ w := by omega
      have hdiv_lo : 10 ≤ m / 36 ^ (w - 1) :=
        (Nat.le_div_iff_mul_le hQ).mpr (by omega)
      have hdiv_hi : m / 36 ^ (w - 1) < 36 :=
        (Nat.div_lt_iff_lt_mul hQ).mpr (by omega)
      have hd0 : m / 36 ^ (w - 1) % 36 = m / 36 ^ (w - 1) :=
        Nat.mod_eq_of_lt hdiv_hi
      have hlen : ((toDigitsFixed 36 w m).map digit36Upper).length = w := by
        rw [List.length_map, toDigitsFixed_length]
      have hhead : ((toDigitsFixed 36 w m).map digit36Upper).head?
          = some (digit36Upper (m / 36 ^ (w - 1))) := by
        rw [List.head?_map, toDigitsFixed_head 36 w m hw, hd0]
        rfl
      unfold decode_hybrid36
      rw [hhead]
      dsimp only
      rw [if_neg (by unfold digit36Upper; split_ifs <;> omega)]
      rw [if_pos (by unfold digit36Upper; split_ifs <;> omega)]
      rw [optMap_map_id fun d hd =>
        val36Upper_digit36Upper (toDigitsFixed_lt 36 (by norm_num) w m d hd)]
      rw [Option.map_some', hlen,
        fromDigits_toDigitsFixed 36 (by norm_num) w m hmu]
      congr 1
      omega
    · rw [if_neg hupper]
      refine ⟨_, rfl, ?_⟩
      obtain ⟨hml, hmu⟩ :
          10 * 36 ^ (w - 1)
              ≤ n - 10 ^ w - 26 * 36 ^ (w - 1) + 10 * 36 ^ (w - 1)
            ∧ n - 10 ^ w - 26 * 36 ^ (w - 1) + 10 * 36 ^ (w - 1) < 36 ^ w := by
        generalize 10 ^ w = P at hn hupper hdec ⊢
        generalize 36 ^ (w - 1) = Q at hn hupper h36 hQ ⊢
        generalize 36 ^ w = R at h36 ⊢
        omega
      set m := n - 10 ^ w - 26 * 36 ^ (w - 1) + 10 * 36 ^ (w - 1) with hm
      have hdiv_lo : 10 ≤ m / 36 ^ (w - 1) :=
        (Nat.le_div_iff_mul_le hQ).mpr (by omega)
      have hdiv_hi : m / 36 ^ (w - 1) < 36 :=
        (Nat.div_lt_iff_lt_mul hQ).mpr (by omega)
      have hd0 : m / 36 ^ (w - 1) % 36 = m / 36 ^ (w - 1) :=
        Nat.mod_eq_of_lt hdiv_hi
      have hlen : ((toDigitsFixed 36 w m).map digit36Lower).length = w := by
        rw [List.length_map, toDigitsFixed_length]
      have hhead : ((toDigitsFixed 36 w m).map digit36Lower).head?
          = some (digit36Lower (m / 36 ^ (w - 1))) := by
        rw [List.head?_map, toDigitsFixed_head 36 w m hw, hd0]
        rfl
      unfold decode_hybrid36
      rw [hhead]
      dsimp only
      rw [if_neg (by unfold digit36Lower; split_ifs <;> omega)]
      rw [if_neg (by unfold digit36Lower; split_ifs <;> omega)]
      rw [if_pos (by unfold digit36Lower; split_ifs <;> omega)]
      rw [optMap_map_id fun d hd =>
        val36Lower_digit36Lower (toDigitsFixed_lt 36 (by norm_num) w m d hd)]
      rw [Option.map_some', hlen,
        fromDigits_toDigitsFixed 36 (by norm_num) w m hmu]
      congr 1
      omega

/-- Witness for C9: the width-4 maximum round-trips. -/
theorem C9_hybrid36_roundtrip_witness :
    ∃ s, encode_hybrid36 2436111 4 = some s ∧ decode_hybrid36 s = some 2436111 :=
  C9_hybrid36_roundtrip.1 4 2436111 (by norm_num)
    (by rw [C9_hybrid36_roundtrip.2.1])
